import Mathlib

/-!
Shallow embedding of the `numbers_into_words` crate (src/lib.rs).

Conventions:
* Rust `u64` values are modelled as `Nat`; every claim that quantifies over the
  64-bit domain carries an explicit `< 2 ^ 64` hypothesis.
* A Rust function returning `Result<String, &str>` is modelled as
  `Except String String`.
* A Rust computation that can panic (via `.expect`, slicing out of bounds or
  indexing) is wrapped in `Option`: `Option.none` models the panic.
* Recursive helpers (`under_100`, `under_1000`) are written with an explicit
  fuel parameter so that they are structurally recursive and kernel-reducible;
  the public wrappers supply fuel `x + 1`, which is always sufficient because
  every recursive call strictly decreases the numeric argument.
-/

/-- `AND_STR` from src/lib.rs. -/
def AND_STR : String := " and "

/-- The `AndBehavior` enum from src/lib.rs. -/
inductive AndBehavior where
  | None
  | LastGroup
  | OnlyUnderThousand
  | All
deriving DecidableEq, Repr

/-- `AndBehavior::insert_and` from src/lib.rs.  The Rust match arm
`(Self::OnlyUnderThousand, _, 0..=999)` is rendered as `if value ≤ 999`. -/
def insert_and (b : AndBehavior) (group : Nat) (value : Nat) : String :=
  match b, group with
  | AndBehavior.None, _ => " "
  | AndBehavior.LastGroup, 0 => AND_STR
  | AndBehavior.LastGroup, _ => " "
  | AndBehavior.OnlyUnderThousand, _ => if value ≤ 999 then AND_STR else " "
  | AndBehavior.All, _ => AND_STR

/-- `single_digit` from src/lib.rs. -/
def single_digit (x : Nat) : Except String String :=
  match x with
  | 0 => Except.ok "zero"
  | 1 => Except.ok "one"
  | 2 => Except.ok "two"
  | 3 => Except.ok "three"
  | 4 => Except.ok "four"
  | 5 => Except.ok "five"
  | 6 => Except.ok "six"
  | 7 => Except.ok "seven"
  | 8 => Except.ok "eight"
  | 9 => Except.ok "nine"
  | _ => Except.error "Value over 9."

/-- Fuelled version of `under_100` from src/lib.rs.  The outer `Option` models
panics of the internal `.expect` calls (`Option.none` = panic); the fuel-zero
case is unreachable whenever `x < fuel`. -/
def under_100F : Nat → Nat → Option (Except String String)
  | 0, _ => Option.none
  | fuel + 1, x =>
    if x ≤ 9 then some (single_digit x)
    else if x = 10 then some (Except.ok "ten")
    else if x = 11 then some (Except.ok "eleven")
    else if x = 12 then some (Except.ok "twelve")
    else if x = 13 then some (Except.ok "thirteen")
    else if x = 15 then some (Except.ok "fifteen")
    else if x = 18 then some (Except.ok "eighteen")
    else if x = 14 ∨ x = 16 ∨ x = 17 ∨ x = 19 then
      match single_digit (x % 10) with
      | Except.ok s => some (Except.ok (s ++ "teen"))
      | Except.error _ => Option.none
    else if x = 20 then some (Except.ok "twenty")
    else if x = 30 then some (Except.ok "thirty")
    else if x = 40 then some (Except.ok "forty")
    else if x = 50 then some (Except.ok "fifty")
    else if x = 80 then some (Except.ok "eighty")
    else if x % 10 = 0 then
      match single_digit (x / 10) with
      | Except.ok s => some (Except.ok (s ++ "ty"))
      | Except.error _ => Option.none
    else if 21 ≤ x ∧ x ≤ 99 then
      match under_100F fuel (x - x % 10) with
      | some (Except.ok t) =>
        match single_digit (x % 10) with
        | Except.ok u => some (Except.ok (t ++ "-" ++ u))
        | Except.error _ => Option.none
      | _ => Option.none
    else some (Except.error "Value over 99")

/-- `under_100` from src/lib.rs. -/
def under_100 (x : Nat) : Option (Except String String) :=
  under_100F (x + 1) x

/-- Fuelled version of `under_1000` from src/lib.rs. -/
def under_1000F : Nat → Nat → Nat → AndBehavior → Nat → Option (Except String String)
  | 0, _, _, _, _ => Option.none
  | fuel + 1, x, group, and_behavior, full_value =>
    if x ≤ 99 then under_100 x
    else if 100 ≤ x ∧ x ≤ 900 ∧ x % 100 = 0 then
      match single_digit (x / 100) with
      | Except.ok s => some (Except.ok (s ++ "-hundred"))
      | Except.error _ => Option.none
    else if x < 1000 then
      match under_1000F fuel (x - x % 100) group and_behavior full_value with
      | some (Except.ok t) =>
        match under_100 (x % 100) with
        | some (Except.ok u) =>
          some (Except.ok (t ++ insert_and and_behavior group full_value ++ u))
        | _ => Option.none
      | _ => Option.none
    else some (Except.error "Value over 999.")

/-- `under_1000` from src/lib.rs. -/
def under_1000 (x group : Nat) (and_behavior : AndBehavior) (full_value : Nat) :
    Option (Except String String) :=
  under_1000F (x + 1) x group and_behavior full_value

/-- `POWERS_THOUSAND` from src/lib.rs. -/
def POWERS_THOUSAND : List String :=
  ["", " thousand", " million", " billion", " trillion", " quadrillion", " quintillion"]

/-- `Option`-valued `map`+`collect` over a list: models Rust's
`iter().map(f).collect::<Vec<_>>()` when `f` can panic (`Option.none`). -/
def mapOpt (f : α → Option β) : List α → Option (List β)
  | [] => some []
  | a :: l =>
    match f a, mapOpt f l with
    | some b, some bs => some (b :: bs)
    | _, _ => Option.none

/-- Rust's `Vec::join` on strings. -/
def joinSep (sep : String) : List String → String
  | [] => ""
  | [s] => s
  | s :: rest => s ++ sep ++ joinSep sep rest

/-- The closure inside `to_word` that renders one group: `under_1000` output
concatenated with the magnitude suffix.  Table indexing is modelled through
`List.get?` (Rust indexing would panic out of bounds, i.e. `Option.none`). -/
def renderPart (ab : AndBehavior) (t : Nat × Nat × Nat) : Option String :=
  match under_1000 t.1 t.2.1 ab t.2.2, POWERS_THOUSAND.get? t.2.1 with
  | some (Except.ok s), some p => some (s ++ p)
  | _, _ => Option.none

/-- `to_word` from src/lib.rs, the public entry point.  `Option.none` models a
panic of one of the internal `.expect` calls. -/
def to_word (x : Nat) (and_behavior : AndBehavior) : Option String :=
  if x = 0 then
    match single_digit 0 with
    | Except.ok s => some s
    | Except.error _ => Option.none
  else
    (mapOpt (renderPart and_behavior)
        (((List.range 7).map (fun y => (x / 10 ^ (3 * (6 - y)) % 1000, 6 - y, x))).filter
          (fun t => t.1 != 0))).map
      (fun l => joinSep ", " l)

/-- The `InputComponent` enum from src/lib.rs (module `process_input`). -/
inductive InputComponent where
  | ToConvert (value : Nat)
  | Error (msg : String)
  | Help
  | AndHelp
  | MinimalOutput
  | AndOption (b : AndBehavior)
deriving DecidableEq, Repr

/-- The `OutputComponent` enum from src/lib.rs (module `process_input`). -/
inductive OutputComponent where
  | ToConvert (value : Nat) (and_behavior : AndBehavior)
  | Error (msg : String)
deriving DecidableEq, Repr

/-- `InputComponent::parse_single_input` from src/lib.rs, modelled on the
token's character list (for ASCII tokens Rust's byte indices coincide with
character indices and `to_lowercase` lowercases pointwise).  The Rust slice
`&cleaned[2..6]` is evaluated with no preceding length guard, so it panics
when the lowercased token is shorter than 6 bytes; that panic is modelled as
`Option.none`. -/
def parse_single_input (text : List Char) : Option InputComponent :=
  let cleaned := text.map Char.toLower
  if 2 < cleaned.length ∧ cleaned.take 2 = ['-', '-'] then
    if cleaned.drop 2 = "help".data then some InputComponent.Help
    else if cleaned.drop 2 = "and-help".data then some InputComponent.AndHelp
    else if cleaned.drop 2 = "minimal".data then some InputComponent.MinimalOutput
    else if 6 ≤ cleaned.length then
      if (cleaned.drop 2).take 4 = "and=".data then
        if cleaned.drop 6 = "none".data then
          some (InputComponent.AndOption AndBehavior.None)
        else if cleaned.drop 6 = "last".data then
          some (InputComponent.AndOption AndBehavior.LastGroup)
        else if cleaned.drop 6 = "below1k".data then
          some (InputComponent.AndOption AndBehavior.OnlyUnderThousand)
        else if cleaned.drop 6 = "all".data then
          some (InputComponent.AndOption AndBehavior.All)
        else
          some (InputComponent.Error ("Invalid \"and\" option: " ++ String.mk (cleaned.drop 6)))
      else some (InputComponent.Error ("Invalid option " ++ String.mk cleaned))
    else Option.none
  else
    let n_text := cleaned.filter (fun c => c.isDigit)
    if n_text = [] then some (InputComponent.Error ("Invalid input: " ++ String.mk text))
    else
      let v := n_text.foldl (fun a c => a * 10 + (c.toNat - '0'.toNat)) 0
      if v < 2 ^ 64 then some (InputComponent.ToConvert v)
      else some (InputComponent.Error ("Too big: " ++ String.mk text))

/-- The `Config` struct from src/lib.rs (module `process_input`). -/
structure Config where
  output_components : Except String (List OutputComponent)
  help : Bool
  and_help : Bool
  prog_name : List Char
  minimal_output : Bool

/-- `Config::parse` from src/lib.rs.  Indexing `args[0]` on an empty vector
and any panicking `parse_single_input` call propagate as `Option.none`.  The
mutable-flag loop of the Rust code is rendered as left folds (last
`--and=` option wins, matching the overwriting assignment). -/
def Config.parse (args : List (List Char)) : Option Config :=
  match args with
  | [] => Option.none
  | prog_name :: rest =>
    if args.length < 2 then
      some { output_components :=
               Except.error ("No arguments. For help, run:\n$ " ++ String.mk prog_name ++ " --help"),
             help := false, and_help := false, minimal_output := false, prog_name := prog_name }
    else
      match mapOpt parse_single_input rest with
      | Option.none => Option.none
      | some input_cmpts =>
        let and_behavior := input_cmpts.foldl
          (fun b k => match k with | InputComponent.AndOption b2 => b2 | _ => b) AndBehavior.All
        let helpFlag := input_cmpts.foldl
          (fun h k => match k with | InputComponent.Help => true | _ => h) false
        let andHelpFlag := input_cmpts.foldl
          (fun h k => match k with | InputComponent.AndHelp => true | _ => h) false
        let minimalFlag := input_cmpts.foldl
          (fun h k => match k with | InputComponent.MinimalOutput => true | _ => h) false
        some { output_components := Except.ok (input_cmpts.filterMap fun x =>
                 match x with
                 | InputComponent.ToConvert k => some (OutputComponent.ToConvert k and_behavior)
                 | InputComponent.Error e => some (OutputComponent.Error e)
                 | _ => Option.none),
               help := helpFlag, and_help := andHelpFlag,
               prog_name := prog_name, minimal_output := minimalFlag }

/-- The nonzero 3-digit groups of `v`'s base-1000 representation, paired with
their magnitude index, most significant first (the spec's wording in §3, §4.2
and §8; used to compare `to_word`'s output structure against the spec). -/
def specNonzeroGroups (v : Nat) : List (Nat × Nat) :=
  ((List.range 7).map (fun y => (v / 1000 ^ (6 - y) % 1000, 6 - y))).filter
    (fun p => p.1 != 0)

/-- `true` when the character list contains no two adjacent space characters. -/
def noDS : List Char → Bool
  | c1 :: c2 :: rest => (!(c1 == ' ' && c2 == ' ')) && noDS (c2 :: rest)
  | _ => true

/-- `l` begins with `p`. -/
def startsL (p l : List Char) : Prop := l.take p.length = p

instance (p l : List Char) : Decidable (startsL p l) :=
  inferInstanceAs (Decidable (l.take p.length = p))

/-- `l` ends with `s`. -/
def endsL (s l : List Char) : Prop :=
  s.length ≤ l.length ∧ l.drop (l.length - s.length) = s

instance (s l : List Char) : Decidable (endsL s l) :=
  inferInstanceAs (Decidable (_ ∧ _))

/-- The character list produced by `under_100` when it succeeds (decoder
helper; empty on failure, which never happens below 100). -/
def r100 (x : Nat) : List Char :=
  match under_100 x with
  | some (Except.ok s) => s.data
  | _ => []

/-- Canonical `under_1000` render with the separator selected by `useAnd`
(`AndBehavior.All` always inserts " and ", `AndBehavior.None` never does). -/
def r1000 (x : Nat) (useAnd : Bool) : List Char :=
  match under_1000 x 0 (if useAnd then AndBehavior.All else AndBehavior.None) 0 with
  | some (Except.ok s) => s.data
  | _ => []

/-- Brute-force inverse of `under_100` on its documented domain. -/
def parse100 (l : List Char) : Option Nat :=
  (List.range 100).findSome? (fun x => if r100 x = l then some x else Option.none)

/-- The rendering of an exact multiple of one hundred: digit word followed by
"-hundred". -/
def hundredWord (d : Nat) : List Char := r100 d ++ "-hundred".data

/-- Structural inverse of `under_1000` (with either separator) on its
documented domain. -/
def parse1000 (l : List Char) : Option Nat :=
  match (List.range 9).findSome?
      (fun d => if startsL (hundredWord (d + 1)) l then some (d + 1) else Option.none) with
  | some d =>
    let rest := l.drop (hundredWord d).length
    if rest = [] then some (d * 100)
    else if rest.take 5 = " and ".data then
      (parse100 (rest.drop 5)).map (fun u => d * 100 + u)
    else if rest.take 1 = [' '] then
      (parse100 (rest.drop 1)).map (fun u => d * 100 + u)
    else Option.none
  | Option.none => parse100 l

/-- Magnitude suffixes with their indices, in decoding order. -/
def susList : List (Nat × List Char) :=
  [(6, " quintillion".data), (5, " quadrillion".data), (4, " trillion".data),
   (3, " billion".data), (2, " million".data), (1, " thousand".data)]

/-- Decode one comma-separated output group back to its
(group value, magnitude index) pair. -/
def decodePart (p : List Char) : Option (Nat × Nat) :=
  match susList.findSome? (fun q => if endsL q.2 p then some q else Option.none) with
  | some (i, s) => (parse1000 (p.take (p.length - s.length))).map (fun g => (g, i))
  | Option.none => (parse1000 p).map (fun g => (g, 0))

/-- Split a character list at every comma. -/
def splitC : List Char → List (List Char)
  | [] => [[]]
  | c :: rest =>
    if c = ',' then [] :: splitC rest
    else
      match splitC rest with
      | l :: ls => (c :: l) :: ls
      | [] => [[c]]

/-- Reconstruction of a value from decoded (group value, magnitude index)
pairs. -/
def wsum (l : List (Nat × Nat)) : Nat :=
  (l.map (fun q => q.1 * 1000 ^ q.2)).sum

/-- Full inverse of `to_word`: split on commas, strip the leading space of
every group after the first, decode each group, recombine. -/
def parseWords (s : String) : Option Nat :=
  match splitC s.data with
  | [] => Option.none
  | h :: t => (mapOpt decodePart (h :: t.map (fun p => p.drop 1))).map wsum

/-- Well-formedness of a rendered group body, checked in bulk below: nonempty,
no double space, no comma, no space at either end, and not ending in any
magnitude suffix. -/
def goodBody (r : List Char) : Bool :=
  (r != []) && noDS r &&
  (r.head? != some ' ') && (r.head? != some ',') &&
  (r.getLast? != some ' ') && (r.getLast? != some ',') &&
  (r.count ',' == 0) &&
  susList.all (fun q => !(decide (endsL q.2 r)))

/-- Well-behavedness of an under-100 render towards the decoder: `parse100`
inverts it, no hundreds word is a prefix of it, and "and " is not a prefix of
it. -/
def goodSmall (x : Nat) : Bool :=
  (r100 x != []) &&
  (parse100 (r100 x) == some x) &&
  ((List.range 9).all (fun d => !(decide (startsL (hundredWord (d + 1)) (r100 x))))) &&
  (!(decide (startsL "and ".data (r100 x))))

/-! ### Utility lemmas about `mapOpt`, `startsL`, `endsL`, `noDS` -/

theorem mapOpt_none_of_mem {α β} {f : α → Option β} {a : α} :
    ∀ {l : List α}, a ∈ l → f a = Option.none → mapOpt f l = Option.none := by
  intro l
  induction l with
  | nil => intro h; cases h
  | cons b t ih =>
    intro hmem hfa
    rcases List.mem_cons.mp hmem with rfl | ht
    · simp [mapOpt, hfa]
    · cases hfb : f b <;> simp [mapOpt, hfb, ih ht hfa]

theorem mapOpt_some_of_forall {α β} {f : α → Option β} :
    ∀ {l : List α}, (∀ a ∈ l, (f a).isSome) →
      ∃ out : List β, mapOpt f l = some out ∧ out.length = l.length ∧
        ∀ i, (l.get? i).bind f = out.get? i := by
  intro l
  induction l with
  | nil => exact fun _ => ⟨[], rfl, rfl, fun i => rfl⟩
  | cons a t ih =>
    intro h
    obtain ⟨b, hb⟩ := Option.isSome_iff_exists.mp (h a (List.mem_cons_self a t))
    obtain ⟨out, hout, hlen, hpt⟩ := ih (fun x hx => h x (List.mem_cons_of_mem a hx))
    refine ⟨b :: out, by simp [mapOpt, hb, hout], by simp [hlen], ?_⟩
    intro i
    cases i with
    | zero => simpa using hb
    | succ j => simpa using hpt j

theorem mapOpt_eq_some_of_pointwise {α β} {f : α → Option β} :
    ∀ {l : List α} {out : List β}, l.length = out.length →
      (∀ i, (l.get? i).bind f = out.get? i) → mapOpt f l = some out := by
  intro l
  induction l with
  | nil =>
    intro out hlen _
    cases out with
    | nil => rfl
    | cons b t => simp at hlen
  | cons a t ih =>
    intro out hlen hpt
    cases out with
    | nil => simp at hlen
    | cons b u =>
      have h0 : f a = some b := by simpa using hpt 0
      have hrest : mapOpt f t = some u :=
        ih (by simpa using hlen) (fun i => by simpa using hpt (i + 1))
      simp [mapOpt, h0, hrest]

theorem mapOpt_map {α β γ} (f : β → Option γ) (g : α → β) :
    ∀ l : List α, mapOpt f (l.map g) = mapOpt (fun a => f (g a)) l := by
  intro l
  induction l with
  | nil => rfl
  | cons a t ih => simp only [List.map_cons, mapOpt, ih]

theorem startsL_append (p t : List Char) : startsL p (p ++ t) :=
  List.take_left p t

theorem startsL_length_le {p l : List Char} (h : startsL p l) : p.length ≤ l.length := by
  have := congrArg List.length h
  simp only [List.length_take] at this
  omega

theorem startsL_of_le {p q l : List Char} (hp : startsL p l) (hq : startsL q l)
    (hle : p.length ≤ q.length) : startsL p q := by
  show q.take p.length = p
  rw [← hq, List.take_take, Nat.min_eq_left hle, hp]

theorem endsL_append (s r : List Char) : endsL s (r ++ s) := by
  refine ⟨by simp, ?_⟩
  have h : (r ++ s).length - s.length = r.length := by simp
  rw [h, List.drop_left]

theorem endsL_of_le {s1 s2 l : List Char} (h1 : endsL s1 l) (h2 : endsL s2 l)
    (hle : s1.length ≤ s2.length) : endsL s1 s2 := by
  obtain ⟨hl1, hd1⟩ := h1
  obtain ⟨hl2, hd2⟩ := h2
  refine ⟨hle, ?_⟩
  have key : List.drop (l.length - s2.length + (s2.length - s1.length)) l = s1 := by
    have h : l.length - s2.length + (s2.length - s1.length) = l.length - s1.length := by omega
    rw [h, hd1]
  calc List.drop (s2.length - s1.length) s2
      = List.drop (s2.length - s1.length) (List.drop (l.length - s2.length) l) := by rw [hd2]
    _ = List.drop (l.length - s2.length + (s2.length - s1.length)) l := List.drop_drop _ _ _
    _ = s1 := key

theorem noDS_cons_of {l : List Char} (c : Char) (h : noDS l = true)
    (hh : l.head? ≠ some ' ') : noDS (c :: l) = true := by
  cases l with
  | nil => rfl
  | cons d t =>
    have hd : (d == ' ') = false := by
      have : d ≠ ' ' := fun e => hh (by simp [e])
      simpa using this
    simp [noDS, hd, h]

theorem noDS_append {l2 : List Char} (h2 : noDS l2 = true) :
    ∀ {l1 : List Char}, noDS l1 = true →
      (l1.getLast? ≠ some ' ' ∨ l2.head? ≠ some ' ') → noDS (l1 ++ l2) = true := by
  intro l1
  induction l1 with
  | nil => intro _ _; simpa using h2
  | cons c t ih =>
    intro h1 hb
    cases t with
    | nil =>
      have hb' : c ≠ ' ' ∨ l2.head? ≠ some ' ' := by
        rcases hb with hb | hb
        · left; intro e; exact hb (by simp [e, List.getLast?])
        · right; exact hb
      cases l2 with
      | nil => rfl
      | cons d t2 =>
        have hpair : (c == ' ' && d == ' ') = false := by
          rcases hb' with hc | hd
          · simp [hc]
          · have : d ≠ ' ' := fun e => hd (by simp [e])
            simp [this]
        simpa [noDS, hpair] using h2
    | cons c2 t2 =>
      have hpair : (!(c == ' ' && c2 == ' ')) = true := by
        have := h1
        simp only [noDS, Bool.and_eq_true] at this
        exact this.1
      have h1' : noDS (c2 :: t2) = true := by
        have := h1
        simp only [noDS, Bool.and_eq_true] at this
        exact this.2
      have hb' : (c2 :: t2).getLast? ≠ some ' ' ∨ l2.head? ≠ some ' ' := by
        rcases hb with hb | hb
        · left; simpa using hb
        · right; exact hb
      have hrec := ih h1' hb'
      show noDS (c :: c2 :: (t2 ++ l2)) = true
      simp only [noDS, Bool.and_eq_true]
      exact ⟨hpair, hrec⟩

theorem head?_append_left {l1 l2 : List Char} (h : l1 ≠ []) :
    (l1 ++ l2).head? = l1.head? := by
  cases l1 with
  | nil => exact absurd rfl h
  | cons c t => rfl

theorem getLast?_append_right {l1 l2 : List Char} (h : l2 ≠ []) :
    (l1 ++ l2).getLast? = l2.getLast? := by
  rw [List.getLast?_append]
  cases h2 : l2.getLast? with
  | none => exact absurd (List.getLast?_eq_none_iff.mp h2) h
  | some x => rfl

/-! ### Separator facts and `under_1000` parametricity -/

theorem insert_and_two (ab : AndBehavior) (g v : Nat) :
    insert_and ab g v = AND_STR ∨ insert_and ab g v = " " := by
  cases ab with
  | None => right; rfl
  | LastGroup =>
    cases g with
    | zero => left; rfl
    | succ n => right; rfl
  | OnlyUnderThousand =>
    by_cases hv : v ≤ 999
    · left; simp [insert_and, hv]
    · right; simp [insert_and, hv]
  | All => left; rfl

theorem under_1000F_congr {g v g' v' : Nat} {ab ab' : AndBehavior}
    (h : insert_and ab g v = insert_and ab' g' v') :
    ∀ fuel x, under_1000F fuel x g ab v = under_1000F fuel x g' ab' v' := by
  intro fuel
  induction fuel with
  | zero => intro x; rfl
  | succ f ih => intro x; simp only [under_1000F, ih, h]

theorem under_1000_congr {g v g' v' : Nat} {ab ab' : AndBehavior}
    (h : insert_and ab g v = insert_and ab' g' v') (x : Nat) :
    under_1000 x g ab v = under_1000 x g' ab' v' :=
  under_1000F_congr h (x + 1) x

/-! ### Success extraction from the canonical renders -/

theorem r100_spec {x : Nat} (h : r100 x ≠ []) :
    ∃ w : String, under_100 x = some (Except.ok w) ∧ w.data = r100 x := by
  cases hu : under_100 x with
  | none => exact absurd (by simp [r100, hu]) h
  | some res =>
    cases res with
    | error e => exact absurd (by simp [r100, hu]) h
    | ok w => exact ⟨w, rfl, by simp [r100, hu]⟩

theorem r1000_spec {x : Nat} (u : Bool) (h : r1000 x u ≠ []) :
    ∃ w : String,
      under_1000 x 0 (if u then AndBehavior.All else AndBehavior.None) 0 =
        some (Except.ok w) ∧ w.data = r1000 x u := by
  cases hu : under_1000 x 0 (if u then AndBehavior.All else AndBehavior.None) 0 with
  | none => exact absurd (by simp [r1000, hu]) h
  | some res =>
    cases res with
    | error e => exact absurd (by simp [r1000, hu]) h
    | ok w => exact ⟨w, rfl, by simp [r1000, hu]⟩

/-! ### Bulk checks, discharged by evaluation -/

set_option maxRecDepth 10000 in
theorem good100 : ∀ x, x < 100 → goodSmall x = true := by decide

set_option maxRecDepth 100000 in
set_option maxHeartbeats 4000000 in
theorem good1000 : ∀ x, x < 1000 →
    (goodBody (r1000 x true) && goodBody (r1000 x false)) = true := by decide

set_option maxRecDepth 10000 in
theorem hw_pairwise : ∀ a, a < 10 → ∀ b, b < 10 → a ≠ b →
    ¬ startsL (hundredWord a) (hundredWord b) := by decide

theorem sus_pairwise : ∀ p ∈ susList, ∀ q ∈ susList, p ≠ q → ¬ endsL p.2 q.2 := by decide

theorem sus_snd_inj : ∀ p ∈ susList, ∀ q ∈ susList, p.2 = q.2 → p = q := by decide

theorem goodSmall_unpack {x : Nat} (h : x < 100) :
    r100 x ≠ [] ∧ parse100 (r100 x) = some x ∧
      (∀ d, d < 9 → ¬ startsL (hundredWord (d + 1)) (r100 x)) ∧
      ¬ startsL "and ".data (r100 x) := by
  have hg := good100 x h
  simp only [goodSmall, Bool.and_eq_true, beq_iff_eq, List.all_eq_true, List.mem_range,
    Bool.not_eq_true', decide_eq_false_iff_not, ne_eq, bne_iff_ne] at hg
  obtain ⟨⟨⟨h1, h2⟩, h3⟩, h4⟩ := hg
  exact ⟨h1, h2, fun d hd => h3 d hd, h4⟩

theorem goodBody_unpack {r : List Char} (h : goodBody r = true) :
    r ≠ [] ∧ noDS r = true ∧ r.head? ≠ some ' ' ∧ r.head? ≠ some ',' ∧
      r.getLast? ≠ some ' ' ∧ r.getLast? ≠ some ',' ∧ r.count ',' = 0 ∧
      ∀ q ∈ susList, ¬ endsL q.2 r := by
  simp only [goodBody, Bool.and_eq_true, beq_iff_eq, List.all_eq_true,
    Bool.not_eq_true', decide_eq_false_iff_not, ne_eq, bne_iff_ne] at h
  obtain ⟨⟨⟨⟨⟨⟨⟨h1, h2⟩, h3⟩, h4⟩, h5⟩, h6⟩, h7⟩, h8⟩ := h
  exact ⟨h1, h2, h3, h4, h5, h6, h7, h8⟩

theorem goodBody1000 {x : Nat} (hx : x < 1000) (u : Bool) : goodBody (r1000 x u) = true := by
  have := good1000 x hx
  simp only [Bool.and_eq_true] at this
  cases u
  · exact this.2
  · exact this.1

/-! ### `under_1000` succeeds below 1000 and yields a canonical render -/

theorem under_1000_ok (x g v : Nat) (ab : AndBehavior) (hx : x < 1000) :
    ∃ (s : String) (u : Bool), under_1000 x g ab v = some (Except.ok s) ∧
      s.data = r1000 x u ∧ goodBody s.data = true := by
  rcases insert_and_two ab g v with hsep | hsep
  · have he : under_1000 x g ab v = under_1000 x 0 AndBehavior.All 0 :=
      under_1000_congr (by rw [hsep]; rfl) x
    have hgb : goodBody (r1000 x true) = true := goodBody1000 hx true
    obtain ⟨w, hw, hwd⟩ := r1000_spec true (goodBody_unpack hgb).1
    exact ⟨w, true, he.trans hw, hwd, by rw [hwd]; exact hgb⟩
  · have he : under_1000 x g ab v = under_1000 x 0 AndBehavior.None 0 :=
      under_1000_congr (by rw [hsep]; rfl) x
    have hgb : goodBody (r1000 x false) = true := goodBody1000 hx false
    obtain ⟨w, hw, hwd⟩ := r1000_spec false (goodBody_unpack hgb).1
    exact ⟨w, false, he.trans hw, hwd, by rw [hwd]; exact hgb⟩

/-! ### The group list of `to_word` versus the spec's base-1000 groups -/

theorem codeList_eq (v : Nat) :
    (((List.range 7).map (fun y => (v / 10 ^ (3 * (6 - y)) % 1000, 6 - y, v))).filter
        (fun t => t.1 != 0)) =
      (specNonzeroGroups v).map (fun p => (p.1, p.2, v)) := by
  have hfun : (fun y => (v / 10 ^ (3 * (6 - y)) % 1000, 6 - y, v)) =
      (fun p : Nat × Nat => (p.1, p.2, v)) ∘ (fun y => (v / 1000 ^ (6 - y) % 1000, 6 - y)) := by
    funext y
    simp only [Function.comp]
    have h : (10 : Nat) ^ (3 * (6 - y)) = 1000 ^ (6 - y) := by
      rw [pow_mul]
      norm_num
    rw [h]
  rw [hfun, ← List.map_map, List.filter_map]
  rfl

theorem specNZ_mem {v : Nat} {p : Nat × Nat} (hp : p ∈ specNonzeroGroups v) :
    p.1 ≠ 0 ∧ p.1 < 1000 ∧ p.2 ≤ 6 := by
  simp only [specNonzeroGroups, List.mem_filter, List.mem_map, List.mem_range] at hp
  obtain ⟨⟨y, hy, rfl⟩, hne⟩ := hp
  refine ⟨by simpa using hne, Nat.mod_lt _ (by norm_num), by omega⟩

theorem powers_get : ∀ i, i ≤ 6 → ∃ suf : String, POWERS_THOUSAND.get? i = some suf := by
  intro i hi
  interval_cases i <;> exact ⟨_, rfl⟩

theorem renderPart_shape {ab : AndBehavior} {g idx v : Nat} (hg : g < 1000) (hidx : idx ≤ 6) :
    ∃ (s : String) (u : Bool) (suf : String),
      renderPart ab (g, idx, v) = some (s ++ suf) ∧ s.data = r1000 g u ∧
      goodBody s.data = true ∧ POWERS_THOUSAND.get? idx = some suf := by
  obtain ⟨s, u, hs, hsd, hgb⟩ := under_1000_ok g idx v ab hg
  obtain ⟨suf, hsuf⟩ := powers_get idx hidx
  refine ⟨s, u, suf, ?_, hsd, hgb, hsuf⟩
  have hsuf2 : POWERS_THOUSAND[idx]? = some suf := by
    rw [← List.get?_eq_getElem?]
    exact hsuf
  simp [renderPart, hs, hsuf2]

theorem to_word_structure (v : Nat) (ab : AndBehavior) (hv : v ≠ 0) :
    ∃ parts : List String,
      to_word v ab = some (joinSep ", " parts) ∧
      parts.length = (specNonzeroGroups v).length ∧
      ∀ i, ((specNonzeroGroups v).get? i).bind
          (fun p => renderPart ab (p.1, p.2, v)) = parts.get? i := by
  have hforall : ∀ p ∈ specNonzeroGroups v,
      ((fun p : Nat × Nat => renderPart ab (p.1, p.2, v)) p).isSome := by
    intro p hp
    obtain ⟨hne, hlt, hle⟩ := specNZ_mem hp
    obtain ⟨s, u, suf, hr, -, -, -⟩ := @renderPart_shape ab p.1 p.2 v hlt hle
    simp only [hr, Option.isSome_some]
  obtain ⟨out, hout, hlen, hpt⟩ := mapOpt_some_of_forall hforall
  refine ⟨out, ?_, hlen, hpt⟩
  unfold to_word
  rw [if_neg hv, codeList_eq, mapOpt_map, hout]
  rfl

/-! ### Base-1000 reconstruction -/

theorem sumBase : ∀ n : Nat, ∀ v : Nat, v < 1000 ^ n →
    ((List.range n).map (fun i => v / 1000 ^ i % 1000 * 1000 ^ i)).sum = v := by
  intro n
  induction n with
  | zero =>
    intro v hv
    have h0 : v = 0 := by simpa using Nat.lt_one_iff.mp (by simpa using hv)
    simp [h0]
  | succ m ih =>
    intro v hv
    rw [List.range_succ_eq_map]
    simp only [List.map_cons, List.map_map, List.sum_cons]
    have hhead : v / 1000 ^ 0 % 1000 * 1000 ^ 0 = v % 1000 := by simp
    have hfe : ((fun i => v / 1000 ^ i % 1000 * 1000 ^ i) ∘ Nat.succ)
        = fun i => 1000 * (v / 1000 / 1000 ^ i % 1000 * 1000 ^ i) := by
      funext i
      simp only [Function.comp]
      have h1 : v / 1000 ^ (i + 1) = v / 1000 / 1000 ^ i := by
        rw [Nat.div_div_eq_div_mul]
        congr 1
        ring
      have h2 : (1000 : Nat) ^ (i + 1) = 1000 * 1000 ^ i := by ring
      rw [show Nat.succ i = i + 1 from rfl, h1, h2]
      ring
    have hdiv : v / 1000 < 1000 ^ m := by
      rw [pow_succ] at hv
      exact (Nat.div_lt_iff_lt_mul (by norm_num)).mpr hv
    rw [hhead, hfe, List.sum_map_mul_left, ih (v / 1000) hdiv]
    omega

theorem wsum_full (v : Nat) (hv : v < 1000 ^ 7) :
    wsum ((List.range 7).map (fun y => (v / 1000 ^ (6 - y) % 1000, 6 - y))) = v := by
  have hbase := sumBase 7 v hv
  unfold wsum
  rw [List.map_map]
  have hrev : ((List.range 7).map
      ((fun q : Nat × Nat => q.1 * 1000 ^ q.2) ∘ (fun y => (v / 1000 ^ (6 - y) % 1000, 6 - y)))) =
      ((List.range 7).map (fun i => v / 1000 ^ i % 1000 * 1000 ^ i)).reverse := rfl
  rw [hrev, List.sum_reverse]
  exact hbase

theorem wsum_cons (p : Nat × Nat) (t : List (Nat × Nat)) :
    wsum (p :: t) = p.1 * 1000 ^ p.2 + wsum t := by
  simp [wsum]

theorem wsum_filter (l : List (Nat × Nat)) :
    wsum (l.filter (fun p => p.1 != 0)) = wsum l := by
  induction l with
  | nil => rfl
  | cons p t ih =>
    by_cases hp : p.1 = 0
    · have hcond : (p.1 != 0) = false := by simp [hp]
      rw [List.filter_cons]
      simp only [hcond, Bool.false_eq_true, if_false]
      rw [ih, wsum_cons, hp]
      simp
    · have hcond : (p.1 != 0) = true := by simp [hp]
      rw [List.filter_cons]
      simp only [hcond, if_true]
      rw [wsum_cons, wsum_cons, ih]

theorem specNZ_ne_nil {v : Nat} (h0 : 0 < v) (h7 : v < 1000 ^ 7) :
    specNonzeroGroups v ≠ [] := by
  intro he
  have hall := List.filter_eq_nil_iff.mp he
  have hz : wsum ((List.range 7).map (fun y => (v / 1000 ^ (6 - y) % 1000, 6 - y))) = 0 := by
    unfold wsum
    apply List.sum_eq_zero
    intro x hx
    rcases List.mem_map.mp hx with ⟨p, hp, rfl⟩
    have hp0 := hall p hp
    simp only [bne_iff_ne, ne_eq, Decidable.not_not] at hp0
    simp [hp0]
  rw [wsum_full v h7] at hz
  omega

/-! ### Evaluation lemmas for `under_1000` below 1000 -/

theorem under_1000_low {g : Nat} (h : g ≤ 99) (gi : Nat) (ab : AndBehavior) (v : Nat) :
    under_1000 g gi ab v = under_100 g := by
  show under_1000F (g + 1) g gi ab v = under_100 g
  rw [under_1000F]
  exact if_pos h

theorem r1000_small {g : Nat} (h : g ≤ 99) (u : Bool) : r1000 g u = r100 g := by
  rw [r1000, under_1000_low h]
  rw [r100]

theorem under_100_digit {d : Nat} (h : d ≤ 9) : under_100 d = some (single_digit d) := by
  show under_100F (d + 1) d = some (single_digit d)
  rw [under_100F]
  exact if_pos h

theorem single_digit_ok {d : Nat} (h : d ≤ 9) : ∃ w : String, single_digit d = Except.ok w := by
  interval_cases d <;> exact ⟨_, rfl⟩

theorem r100_digit {d : Nat} (h : d ≤ 9) :
    ∃ w : String, single_digit d = Except.ok w ∧ r100 d = w.data := by
  obtain ⟨w, hw⟩ := single_digit_ok h
  exact ⟨w, hw, by simp [r100, under_100_digit h, hw]⟩

theorem under_1000F_mult (fuel : Nat) (hf : 0 < fuel) {x : Nat} (h1 : 100 ≤ x) (h2 : x ≤ 900)
    (h3 : x % 100 = 0) (gi : Nat) (ab : AndBehavior) (v : Nat) :
    under_1000F fuel x gi ab v =
      match single_digit (x / 100) with
      | Except.ok s => some (Except.ok (s ++ "-hundred"))
      | Except.error _ => Option.none := by
  cases fuel with
  | zero => omega
  | succ f =>
    rw [under_1000F]
    rw [if_neg (by omega), if_pos ⟨h1, h2, h3⟩]

theorem under_1000_mult_val {x : Nat} (h1 : 100 ≤ x) (h2 : x ≤ 900) (h3 : x % 100 = 0)
    (gi : Nat) (ab : AndBehavior) (v : Nat) :
    ∃ w : String, single_digit (x / 100) = Except.ok w ∧
      under_1000 x gi ab v = some (Except.ok (w ++ "-hundred")) := by
  obtain ⟨w, hw⟩ := single_digit_ok (show x / 100 ≤ 9 by omega)
  refine ⟨w, hw, ?_⟩
  show under_1000F (x + 1) x gi ab v = _
  rw [under_1000F_mult (x + 1) (by omega) h1 h2 h3, hw]

theorem r1000_mult {x : Nat} (h1 : 100 ≤ x) (h2 : x ≤ 900) (h3 : x % 100 = 0) (u : Bool) :
    r1000 x u = hundredWord (x / 100) := by
  obtain ⟨w, hw, hres⟩ := under_1000_mult_val h1 h2 h3 0
    (if u then AndBehavior.All else AndBehavior.None) 0
  obtain ⟨w2, hw2, hwd2⟩ := r100_digit (show x / 100 ≤ 9 by omega)
  have hww : w2 = w := by
    rw [hw] at hw2
    exact (Except.ok.inj hw2).symm
  rw [r1000, hres, hundredWord, hwd2, hww]
  simp

theorem under_1000_comp {x : Nat} (h1 : 100 ≤ x) (h2 : x ≤ 999) (h3 : x % 100 ≠ 0)
    (gi : Nat) (ab : AndBehavior) (v : Nat) :
    under_1000 x gi ab v =
      match under_1000F x (x - x % 100) gi ab v with
      | some (Except.ok t) =>
        match under_100 (x % 100) with
        | some (Except.ok u) => some (Except.ok (t ++ insert_and ab gi v ++ u))
        | _ => Option.none
      | _ => Option.none := by
  show under_1000F (x + 1) x gi ab v = _
  rw [under_1000F]
  rw [if_neg (by omega), if_neg (fun hcon => h3 hcon.2.2), if_pos (by omega)]

theorem under_1000_hundreds {x : Nat} (h1 : 100 ≤ x) (h2 : x ≤ 999) (h3 : x % 100 ≠ 0)
    (gi : Nat) (ab : AndBehavior) (v : Nat) :
    ∃ (w u100 : String),
      single_digit (x / 100) = Except.ok w ∧
      under_100 (x % 100) = some (Except.ok u100) ∧
      under_1000 x gi ab v =
        some (Except.ok (w ++ "-hundred" ++ insert_and ab gi v ++ u100)) := by
  obtain ⟨w, hw⟩ := single_digit_ok (show x / 100 ≤ 9 by omega)
  have hm : x % 100 < 100 := Nat.mod_lt _ (by norm_num)
  obtain ⟨u100, hu, hud⟩ := @r100_spec (x % 100) (goodSmall_unpack hm).1
  have hrec : under_1000F x (x - x % 100) gi ab v = some (Except.ok (w ++ "-hundred")) := by
    have hdiv : (x - x % 100) / 100 = x / 100 := by omega
    rw [under_1000F_mult x (by omega) (by omega) (by omega) (by omega), hdiv, hw]
  refine ⟨w, u100, hw, hu, ?_⟩
  rw [under_1000_comp h1 h2 h3, hrec, hu]

theorem r1000_shape {x : Nat} (h1 : 100 ≤ x) (h2 : x ≤ 999) (h3 : x % 100 ≠ 0) (u : Bool) :
    r1000 x u = hundredWord (x / 100) ++ (if u then " and " else " ").data ++ r100 (x % 100) := by
  obtain ⟨w, u100, hw, hu, hres⟩ := under_1000_hundreds h1 h2 h3 0
    (if u then AndBehavior.All else AndBehavior.None) 0
  have hsep : insert_and (if u then AndBehavior.All else AndBehavior.None) 0 0 =
      (if u then " and " else " ") := by cases u <;> rfl
  obtain ⟨w2, hw2, hwd2⟩ := r100_digit (show x / 100 ≤ 9 by omega)
  have hww : w2 = w := by
    rw [hw] at hw2
    exact (Except.ok.inj hw2).symm
  have hu100 : u100.data = r100 (x % 100) := by
    rw [r100, hu]
  rw [r1000, hres, hsep, hundredWord, hwd2, hww, ← hu100]
  simp

/-! ### The structural inverse `parse1000` -/

theorem findSome?_of_unique {α β} {f : α → Option β} :
    ∀ {l : List α} {a : α} {b : β}, a ∈ l → f a = some b →
      (∀ x ∈ l, x ≠ a → f x = Option.none) → l.findSome? f = some b := by
  intro l
  induction l with
  | nil => intro a b h; cases h
  | cons hd tl ih =>
    intro a b hmem hf hmiss
    rcases List.mem_cons.mp hmem with rfl | htl
    · rw [List.findSome?_cons, hf]
    · by_cases hhd : hd = a
      · subst hhd; rw [List.findSome?_cons, hf]
      · rw [List.findSome?_cons, hmiss hd (List.mem_cons_self _ _) hhd]
        exact ih htl hf (fun x hx hne => hmiss x (List.mem_cons_of_mem _ hx) hne)

theorem hw_no_confusion {a b : Nat} (ha : a < 10) (hb : b < 10) (hne : a ≠ b)
    (rest : List Char) : ¬ startsL (hundredWord a) (hundredWord b ++ rest) := by
  intro hcon
  have hb' : startsL (hundredWord b) (hundredWord b ++ rest) := startsL_append _ _
  by_cases hlen : (hundredWord a).length ≤ (hundredWord b).length
  · exact hw_pairwise a ha b hb hne (startsL_of_le hcon hb' hlen)
  · exact hw_pairwise b hb a ha (Ne.symm hne) (startsL_of_le hb' hcon (by omega))

theorem scan_hundred {c : Nat} (hc1 : 1 ≤ c) (hc2 : c ≤ 9) (rest : List Char) :
    (List.range 9).findSome?
      (fun d => if startsL (hundredWord (d + 1)) (hundredWord c ++ rest) then some (d + 1)
                else Option.none) = some c := by
  apply findSome?_of_unique (List.mem_range.mpr (show c - 1 < 9 by omega))
  · have hc : c - 1 + 1 = c := by omega
    rw [hc, if_pos (startsL_append _ _)]
  · intro d hd hne
    have hd9 : d < 9 := List.mem_range.mp hd
    have hne' : d + 1 ≠ c := by omega
    exact if_neg (fun hcon => hw_no_confusion (by omega) (by omega) hne' rest hcon)

theorem scan_small {x : Nat} (hx : x < 100) :
    (List.range 9).findSome?
      (fun d => if startsL (hundredWord (d + 1)) (r100 x) then some (d + 1)
                else Option.none) = Option.none := by
  obtain ⟨-, -, hhw, -⟩ := goodSmall_unpack hx
  exact List.findSome?_eq_none_iff.mpr
    (fun d hd => if_neg (hhw d (List.mem_range.mp hd)))

theorem parse1000_on {c : Nat} (hc1 : 1 ≤ c) (hc2 : c ≤ 9) (rest0 : List Char) :
    parse1000 (hundredWord c ++ rest0) =
      (if rest0 = [] then some (c * 100)
       else if rest0.take 5 = " and ".data then
         (parse100 (rest0.drop 5)).map (fun u => c * 100 + u)
       else if rest0.take 1 = [' '] then
         (parse100 (rest0.drop 1)).map (fun u => c * 100 + u)
       else Option.none) := by
  rw [parse1000, scan_hundred hc1 hc2]
  simp only [List.drop_left]

theorem parse1000_rt {x : Nat} (hx : x < 1000) (u : Bool) :
    parse1000 (r1000 x u) = some x := by
  by_cases hsmall : x ≤ 99
  · rw [r1000_small hsmall]
    obtain ⟨-, hp, -, -⟩ := goodSmall_unpack (show x < 100 by omega)
    rw [parse1000, scan_small (by omega)]
    exact hp
  · have h1 : 100 ≤ x := by omega
    have hc1 : 1 ≤ x / 100 := by omega
    have hc2 : x / 100 ≤ 9 := by omega
    by_cases h3 : x % 100 = 0
    · rw [show r1000 x u = hundredWord (x / 100) ++ ([] : List Char) by
        rw [r1000_mult h1 (by omega) h3]
        simp]
      rw [parse1000_on hc1 hc2]
      have hx' : x / 100 * 100 = x := by omega
      simp [hx']
    · have hm : x % 100 < 100 := Nat.mod_lt _ (by norm_num)
      obtain ⟨-, hp, -, hand⟩ := goodSmall_unpack hm
      have hx' : x / 100 * 100 + x % 100 = x := by omega
      cases u with
      | true =>
        rw [show r1000 x true = hundredWord (x / 100) ++ (" and ".data ++ r100 (x % 100)) by
          rw [r1000_shape h1 (by omega) h3]
          simp]
        rw [parse1000_on hc1 hc2]
        rw [if_neg (by simp),
          if_pos (show List.take 5 (" and ".data ++ r100 (x % 100)) = " and ".data from rfl),
          show List.drop 5 (" and ".data ++ r100 (x % 100)) = r100 (x % 100) from rfl, hp]
        simp [hx']
      | false =>
        rw [show r1000 x false = hundredWord (x / 100) ++ (' ' :: r100 (x % 100)) by
          rw [r1000_shape h1 (by omega) h3]
          simp]
        rw [parse1000_on hc1 hc2]
        rw [if_neg (by simp)]
        rw [if_neg ?hno, if_pos ?hyes]
        case hno =>
          intro hcon
          have h5 : (' ' :: r100 (x % 100)).take 5 = ' ' :: (r100 (x % 100)).take 4 := rfl
          rw [h5] at hcon
          have : (r100 (x % 100)).take 4 = "and ".data := by
            have := List.cons.inj hcon
            exact this.2
          exact hand this
        case hyes => rfl
        rw [show (' ' :: r100 (x % 100)).drop 1 = r100 (x % 100) from rfl, hp]
        simp [hx']

/-! ### Decoding one rendered group -/

theorem sus_no_confusion {p q : Nat × List Char} (hp : p ∈ susList) (hq : q ∈ susList)
    (hne : q ≠ p) (r : List Char) : ¬ endsL q.2 (r ++ p.2) := by
  intro hcon
  have hp' : endsL p.2 (r ++ p.2) := endsL_append _ _
  by_cases hlen : q.2.length ≤ p.2.length
  · exact sus_pairwise q hq p hp hne (endsL_of_le hcon hp' hlen)
  · exact sus_pairwise p hp q hq (Ne.symm hne) (endsL_of_le hp' hcon (by omega))

theorem scan_sus_hit {p : Nat × List Char} (hp : p ∈ susList) (r : List Char) :
    susList.findSome? (fun q => if endsL q.2 (r ++ p.2) then some q else Option.none) =
      some p := by
  apply findSome?_of_unique hp
  · exact if_pos (endsL_append _ _)
  · intro q hq hne
    exact if_neg (sus_no_confusion hp hq hne r)

theorem scan_sus_none {r : List Char} (h : ∀ q ∈ susList, ¬ endsL q.2 r) :
    susList.findSome? (fun q => if endsL q.2 r then some q else Option.none) = Option.none :=
  List.findSome?_eq_none_iff.mpr (fun q hq => if_neg (h q hq))

theorem decodePart_rt {g : Nat} (hg : g < 1000) (u : Bool) {idx : Nat} (hidx : idx ≤ 6)
    {suf : String} (hsuf : POWERS_THOUSAND.get? idx = some suf) :
    decodePart (r1000 g u ++ suf.data) = some (g, idx) := by
  by_cases hzero : idx = 0
  · subst hzero
    obtain rfl : "" = suf := Option.some.inj hsuf
    rw [show r1000 g u ++ "".data = r1000 g u by simp]
    rw [decodePart]
    rw [scan_sus_none (goodBody_unpack (goodBody1000 hg u)).2.2.2.2.2.2.2]
    rw [parse1000_rt hg u]
    rfl
  · have hpmem : (idx, suf.data) ∈ susList := by
      interval_cases idx
      · exact absurd rfl hzero
      · obtain rfl : " thousand" = suf := Option.some.inj hsuf
        decide
      · obtain rfl : " million" = suf := Option.some.inj hsuf
        decide
      · obtain rfl : " billion" = suf := Option.some.inj hsuf
        decide
      · obtain rfl : " trillion" = suf := Option.some.inj hsuf
        decide
      · obtain rfl : " quadrillion" = suf := Option.some.inj hsuf
        decide
      · obtain rfl : " quintillion" = suf := Option.some.inj hsuf
        decide
    have hscan := scan_sus_hit hpmem (r1000 g u)
    rw [decodePart, hscan]
    show (parse1000 (List.take ((r1000 g u ++ suf.data).length - suf.data.length)
      (r1000 g u ++ suf.data))).map (fun g => (g, idx)) = some (g, idx)
    have hlen : (r1000 g u ++ suf.data).length - suf.data.length = (r1000 g u).length := by
      simp
    rw [hlen, List.take_left, parse1000_rt hg u]
    rfl

/-! ### Splitting the joined output recovers the parts -/

theorem splitC_no_comma : ∀ {l : List Char}, ',' ∉ l → splitC l = [l] := by
  intro l
  induction l with
  | nil => intro _; rfl
  | cons c t ih =>
    intro h
    have hc : ¬ c = ',' := fun e => h (by rw [e]; exact List.mem_cons_self _ _)
    rw [splitC, if_neg hc, ih (fun hm => h (List.mem_cons_of_mem _ hm))]

theorem splitC_append : ∀ {l1 : List Char}, ',' ∉ l1 → ∀ l2 : List Char,
    splitC (l1 ++ ',' :: l2) = l1 :: splitC l2 := by
  intro l1
  induction l1 with
  | nil => intro _ l2; rw [List.nil_append, splitC, if_pos rfl]
  | cons c t ih =>
    intro h l2
    have hc : ¬ c = ',' := fun e => h (by rw [e]; exact List.mem_cons_self _ _)
    rw [List.cons_append, splitC, if_neg hc,
      ih (fun hm => h (List.mem_cons_of_mem _ hm)) l2]

theorem joinSep_cons (p q : String) (t : List String) :
    joinSep ", " (p :: q :: t) = p ++ ", " ++ joinSep ", " (q :: t) := rfl

theorem joinSep_cons_data (p q : String) (t : List String) :
    (joinSep ", " (p :: q :: t)).data =
      p.data ++ ',' :: ' ' :: (joinSep ", " (q :: t)).data := by
  rw [joinSep_cons]
  simp

theorem splitC_joinSep : ∀ (ps : List String) (p : String),
    (∀ q ∈ p :: ps, ',' ∉ q.data) →
    splitC (joinSep ", " (p :: ps)).data = p.data :: ps.map (fun q => ' ' :: q.data) := by
  intro ps
  induction ps with
  | nil =>
    intro p h
    exact splitC_no_comma (h p (List.mem_cons_self _ _))
  | cons q qs ih =>
    intro p h
    rw [joinSep_cons_data, splitC_append (h p (List.mem_cons_self _ _))]
    have hJ := ih q (fun r hr => h r (List.mem_cons_of_mem _ hr))
    rw [splitC, if_neg (by decide), hJ]
    rfl

/-! ### `parseWords` inverts `to_word` -/

theorem to_word_parse (v : Nat) (hv : v < 2 ^ 64) (ab : AndBehavior) :
    ∃ out : String, to_word v ab = some out ∧ parseWords out = some v := by
  by_cases h0 : v = 0
  · subst h0
    exact ⟨"zero", rfl, by decide⟩
  · obtain ⟨parts, hw, hlen, hpt⟩ := to_word_structure v ab h0
    have h7 : v < 1000 ^ 7 := lt_of_lt_of_le hv (by norm_num)
    have hnz := specNZ_ne_nil (Nat.pos_of_ne_zero h0) h7
    have hplen : parts ≠ [] := by
      intro he
      rw [he] at hlen
      exact hnz (List.eq_nil_of_length_eq_zero hlen.symm)
    -- the shape of every part
    have hform : ∀ i, i < parts.length →
        ∃ (p : Nat × Nat) (s suf : String) (u : Bool),
          (specNonzeroGroups v).get? i = some p ∧ parts.get? i = some (s ++ suf) ∧
          s.data = r1000 p.1 u ∧ POWERS_THOUSAND.get? p.2 = some suf ∧
          p.1 < 1000 ∧ p.2 ≤ 6 := by
      intro i hi
      have hi' : i < (specNonzeroGroups v).length := hlen ▸ hi
      have hsp : (specNonzeroGroups v).get? i =
          some ((specNonzeroGroups v).get ⟨i, hi'⟩) := List.get?_eq_get hi'
      set p := (specNonzeroGroups v).get ⟨i, hi'⟩ with hp
      have hmem : p ∈ specNonzeroGroups v := List.get_mem _ _ _
      obtain ⟨hne0, hlt, hle⟩ := specNZ_mem hmem
      obtain ⟨s, u, suf, hr, hsd, hgb, hsuf⟩ := @renderPart_shape ab p.1 p.2 v hlt hle
      have hpti : renderPart ab (p.1, p.2, v) = parts.get? i := by
        have h' := hpt i
        rw [hsp] at h'
        exact h'
      rw [hr] at hpti
      exact ⟨p, s, suf, u, hsp, hpti.symm, hsd, hsuf, hlt, hle⟩
    -- every part is comma-free
    have hsufcf : ∀ i, i ≤ 6 → ∀ suf : String,
        POWERS_THOUSAND.get? i = some suf → ',' ∉ suf.data := by
      intro i hi suf hsuf
      interval_cases i <;> (obtain rfl := Option.some.inj hsuf) <;> decide
    have hcf : ∀ q ∈ parts, ',' ∉ q.data := by
      intro q hq
      obtain ⟨i, hqi⟩ := List.mem_iff_get?.mp hq
      have hi : i < parts.length := by
        by_contra hni
        rw [List.get?_eq_none.mpr (by omega)] at hqi
        cases hqi
      obtain ⟨p, s, suf, u, hsp, hpi, hsd, hsuf, hlt, hle⟩ := hform i hi
      rw [hpi] at hqi
      obtain rfl := Option.some.inj hqi
      have hgb := goodBody1000 hlt u
      rw [← hsd] at hgb
      have hcount := (goodBody_unpack hgb).2.2.2.2.2.2.1
      intro hmem
      rw [String.data_append] at hmem
      rcases List.mem_append.mp hmem with hm | hm
      · exact absurd hm (List.count_eq_zero.mp hcount)
      · exact hsufcf p.2 hle suf hsuf hm
    -- decode pointwise
    have hdec : mapOpt decodePart (parts.map String.data) = some (specNonzeroGroups v) := by
      apply mapOpt_eq_some_of_pointwise
      · simp [hlen]
      · intro i
        by_cases hi : i < parts.length
        · obtain ⟨p, s, suf, u, hsp, hpi, hsd, hsuf, hlt, hle⟩ := hform i hi
          rw [List.get?_map, hpi, hsp]
          show decodePart ((s ++ suf).data) = some p
          rw [String.data_append, hsd, decodePart_rt hlt u hle hsuf]
        · rw [List.get?_map, List.get?_eq_none.mpr (by omega),
            List.get?_eq_none.mpr (by rw [← hlen]; omega)]
          rfl
    -- assemble
    obtain ⟨p, ps, rfl⟩ := List.exists_cons_of_ne_nil hplen
    refine ⟨joinSep ", " (p :: ps), hw, ?_⟩
    rw [parseWords, splitC_joinSep ps p hcf]
    show (mapOpt decodePart (p.data :: (ps.map (fun q => ' ' :: q.data)).map
      (fun l => l.drop 1))).map wsum = some v
    have hmm : (ps.map (fun q => ' ' :: q.data)).map (fun l => l.drop 1) =
        ps.map String.data := by
      rw [List.map_map]
      rfl
    rw [hmm]
    have hdl : (p.data :: ps.map String.data) = (p :: ps).map String.data := rfl
    rw [hdl, hdec]
    have hws : wsum (specNonzeroGroups v) = v := by
      rw [specNonzeroGroups, wsum_filter, wsum_full v h7]
    simp [hws]

/-! ### Shape of every rendered part -/

theorem to_word_part_shape {v : Nat} {ab : AndBehavior} {parts : List String}
    (hlen : parts.length = (specNonzeroGroups v).length)
    (hpt : ∀ i, ((specNonzeroGroups v).get? i).bind
      (fun p => renderPart ab (p.1, p.2, v)) = parts.get? i) :
    ∀ i, i < parts.length →
      ∃ (p : Nat × Nat) (s suf : String) (u : Bool),
        (specNonzeroGroups v).get? i = some p ∧ parts.get? i = some (s ++ suf) ∧
        s.data = r1000 p.1 u ∧ goodBody s.data = true ∧
        POWERS_THOUSAND.get? p.2 = some suf ∧ p.1 < 1000 ∧ p.2 ≤ 6 := by
  intro i hi
  have hi' : i < (specNonzeroGroups v).length := hlen ▸ hi
  have hsp : (specNonzeroGroups v).get? i =
      some ((specNonzeroGroups v).get ⟨i, hi'⟩) := List.get?_eq_get hi'
  set p := (specNonzeroGroups v).get ⟨i, hi'⟩ with hp
  have hmem : p ∈ specNonzeroGroups v := List.get_mem _ _ _
  obtain ⟨hne0, hlt, hle⟩ := specNZ_mem hmem
  obtain ⟨s, u, suf, hr, hsd, hgb, hsuf⟩ := @renderPart_shape ab p.1 p.2 v hlt hle
  have hpti : renderPart ab (p.1, p.2, v) = parts.get? i := by
    have h' := hpt i
    rw [hsp] at h'
    exact h'
  rw [hr] at hpti
  exact ⟨p, s, suf, u, hsp, hpti.symm, hsd, hgb, hsuf, hlt, hle⟩

theorem suffix_comma_free : ∀ i, i ≤ 6 → ∀ suf : String,
    POWERS_THOUSAND.get? i = some suf → ',' ∉ suf.data := by
  intro i hi suf hsuf
  interval_cases i <;> (obtain rfl := Option.some.inj hsuf) <;> decide

theorem part_props {s suf : String} {x : Nat} {u : Bool} (_hsd : s.data = r1000 x u)
    (hgb : goodBody s.data = true) {idx : Nat} (hidx : idx ≤ 6)
    (hsuf : POWERS_THOUSAND.get? idx = some suf) :
    (s ++ suf).data ≠ [] ∧ noDS (s ++ suf).data = true ∧
    (s ++ suf).data.head? ≠ some ' ' ∧ (s ++ suf).data.head? ≠ some ',' ∧
    (s ++ suf).data.getLast? ≠ some ' ' ∧ (s ++ suf).data.getLast? ≠ some ',' ∧
    (s ++ suf).data.count ',' = 0 := by
  obtain ⟨hne, hnds, hh1, hh2, hl1, hl2, hcnt, -⟩ := goodBody_unpack hgb
  rw [String.data_append]
  interval_cases idx <;> obtain rfl := Option.some.inj hsuf
  · rw [show ("" : String).data = [] from rfl, List.append_nil]
    exact ⟨hne, hnds, hh1, hh2, hl1, hl2, hcnt⟩
  all_goals
    exact ⟨by simp [hne], noDS_append (by decide) hnds (Or.inl hl1),
      by rw [head?_append_left hne]; exact hh1,
      by rw [head?_append_left hne]; exact hh2,
      by rw [getLast?_append_right (by decide)]; decide,
      by rw [getLast?_append_right (by decide)]; decide,
      by rw [List.count_append, hcnt]; decide⟩

/-! ### Well-formedness of the joined output -/

theorem joined_good : ∀ parts : List String, parts ≠ [] →
    (∀ q ∈ parts, q.data ≠ [] ∧ noDS q.data = true ∧ q.data.head? ≠ some ' ' ∧
      q.data.head? ≠ some ',' ∧ q.data.getLast? ≠ some ' ' ∧ q.data.getLast? ≠ some ',' ∧
      q.data.count ',' = 0) →
    (joinSep ", " parts).data ≠ [] ∧ noDS (joinSep ", " parts).data = true ∧
    (joinSep ", " parts).data.head? ≠ some ' ' ∧
    (joinSep ", " parts).data.head? ≠ some ',' ∧
    (joinSep ", " parts).data.getLast? ≠ some ' ' ∧
    (joinSep ", " parts).data.getLast? ≠ some ',' ∧
    (joinSep ", " parts).data.count ',' = parts.length - 1 := by
  intro parts
  induction parts with
  | nil => intro h; exact absurd rfl h
  | cons p rest ih =>
    intro _ hall
    cases rest with
    | nil =>
      obtain ⟨h1, h2, h3, h4, h5, h6, h7⟩ := hall p (List.mem_cons_self _ _)
      exact ⟨h1, h2, h3, h4, h5, h6, by simpa [joinSep] using h7⟩
    | cons q rest2 =>
      obtain ⟨hJne, hJnds, hJh1, hJh2, hJl1, hJl2, hJcnt⟩ :=
        ih (by simp) (fun r hr => hall r (List.mem_cons_of_mem _ hr))
      obtain ⟨hpne, hpnds, hph1, hph2, hpl1, hpl2, hpcnt⟩ :=
        hall p (List.mem_cons_self _ _)
      rw [joinSep_cons_data]
      set J := (joinSep ", " (q :: rest2)).data with hJdef
      have hsp : noDS (' ' :: J) = true := noDS_cons_of ' ' hJnds hJh1
      have hcomma : noDS (',' :: ' ' :: J) = true := by
        rw [show noDS (',' :: ' ' :: J) =
          ((!(',' == ' ' && ' ' == ' ')) && noDS (' ' :: J)) from rfl, hsp]
        decide
      have hlast : (',' :: ' ' :: J).getLast? = J.getLast? := by
        cases hJ2 : J with
        | nil => exact absurd hJ2 hJne
        | cons a t => rw [List.getLast?_cons_cons, List.getLast?_cons_cons]
      refine ⟨by simp, ?_, ?_, ?_, ?_, ?_, ?_⟩
      · exact noDS_append hcomma hpnds (Or.inl hpl1)
      · rw [head?_append_left hpne]; exact hph1
      · rw [head?_append_left hpne]; exact hph2
      · rw [getLast?_append_right (by simp), hlast]; exact hJl1
      · rw [getLast?_append_right (by simp), hlast]; exact hJl2
      · rw [List.count_append, hpcnt]
        have hc2 : (',' :: ' ' :: J).count ',' = J.count ',' + 1 := by
          rw [List.count_cons_self, List.count_cons_of_ne (by decide)]
        rw [hc2, hJcnt]
        simp only [List.length_cons]
        omega

theorem specNZ_small {v : Nat} (hv : v < 1000) : (specNonzeroGroups v).length ≤ 1 := by
  have e : ∀ k, 1 ≤ k → v / 1000 ^ k % 1000 = 0 := by
    intro k h1
    have hk : (1000 : Nat) ≤ 1000 ^ k := by
      calc (1000 : Nat) = 1000 ^ 1 := by norm_num
        _ ≤ 1000 ^ k := Nat.pow_le_pow_right (by norm_num) h1
    rw [Nat.div_eq_of_lt (lt_of_lt_of_le hv hk)]
  show (List.filter _ ((List.range 7).map _)).length ≤ 1
  rw [show (List.range 7).map (fun y => (v / 1000 ^ (6 - y) % 1000, 6 - y)) =
    [(v / 1000 ^ 6 % 1000, 6), (v / 1000 ^ 5 % 1000, 5), (v / 1000 ^ 4 % 1000, 4),
     (v / 1000 ^ 3 % 1000, 3), (v / 1000 ^ 2 % 1000, 2), (v / 1000 ^ 1 % 1000, 1),
     (v / 1000 ^ 0 % 1000, 0)] from rfl]
  rw [e 6 (by omega), e 5 (by omega), e 4 (by omega), e 3 (by omega), e 2 (by omega),
    e 1 (by omega)]
  have h0 : v / 1000 ^ 0 % 1000 = v := by
    have : v % 1000 = v := Nat.mod_eq_of_lt hv
    simp [this]
  rw [h0]
  by_cases hv0 : v = 0
  · simp [List.filter, hv0]
  · have : (v != 0) = true := by simp [hv0]
    simp [List.filter, this]

/-- C1: `to_word` applied to the maximum 64-bit value `18446744073709551615` with the
`All` policy returns exactly the expected fully spelled-out string. -/
theorem claim_c1 : to_word 18446744073709551615 AndBehavior.All =
    some "eighteen quintillion, four-hundred and forty-six quadrillion, seven-hundred and forty-four trillion, seventy-three billion, seven-hundred and nine million, five-hundred and fifty-one thousand, six-hundred and fifteen" := by
  set_option maxRecDepth 10000 in decide

/-- C2: the five concrete policy cases of the spec's policy-correctness table hold. -/
theorem claim_c2 :
    to_word 350000430 AndBehavior.None =
      some "three-hundred fifty million, four-hundred thirty" ∧
    to_word 350000430 AndBehavior.LastGroup =
      some "three-hundred fifty million, four-hundred and thirty" ∧
    to_word 2859 AndBehavior.OnlyUnderThousand =
      some "two thousand, eight-hundred fifty-nine" ∧
    to_word 731 AndBehavior.OnlyUnderThousand = some "seven-hundred and thirty-one" ∧
    to_word 731 AndBehavior.All = some "seven-hundred and thirty-one" :=
  ⟨by decide, by decide, by decide, by decide, by decide⟩

/-- C3: for every `v ≥ 1000` (within the 64-bit domain) and every policy, the rendered
text is the comma-join of exactly one part per nonzero base-1000 group of `v`, in
most-significant-first order (part `i` renders group `i` of `specNonzeroGroups`), the
parts contain no comma, and the text contains one comma fewer than there are nonzero
groups. -/
theorem claim_c3 (v : Nat) (ab : AndBehavior) (h1 : 1000 ≤ v) (h2 : v < 2 ^ 64) :
    ∃ parts : List String,
      to_word v ab = some (joinSep ", " parts) ∧
      parts.length = (specNonzeroGroups v).length ∧
      (∀ i, ((specNonzeroGroups v).get? i).bind
        (fun p => renderPart ab (p.1, p.2, v)) = parts.get? i) ∧
      (∀ q ∈ parts, ',' ∉ q.data) ∧
      (joinSep ", " parts).data.count ',' + 1 = (specNonzeroGroups v).length := by
  obtain ⟨parts, hw, hlen, hpt⟩ := to_word_structure v ab (by omega)
  have hform := to_word_part_shape hlen hpt
  have hprops : ∀ q ∈ parts, q.data ≠ [] ∧ noDS q.data = true ∧ q.data.head? ≠ some ' ' ∧
      q.data.head? ≠ some ',' ∧ q.data.getLast? ≠ some ' ' ∧ q.data.getLast? ≠ some ',' ∧
      q.data.count ',' = 0 := by
    intro q hq
    obtain ⟨i, hqi⟩ := List.mem_iff_get?.mp hq
    have hi : i < parts.length := by
      by_contra hni
      rw [List.get?_eq_none.mpr (by omega)] at hqi
      cases hqi
    obtain ⟨p, s, suf, u, hsp, hpi, hsd, hgb, hsuf, hlt, hle⟩ := hform i hi
    rw [hpi] at hqi
    obtain rfl := Option.some.inj hqi
    exact part_props hsd hgb hle hsuf
  have hcf : ∀ q ∈ parts, ',' ∉ q.data := by
    intro q hq
    have h := (hprops q hq).2.2.2.2.2.2
    exact List.count_eq_zero.mp h
  have hnz : parts ≠ [] := by
    intro he
    have h7 : v < 1000 ^ 7 := lt_of_lt_of_le h2 (by norm_num)
    rw [he] at hlen
    exact specNZ_ne_nil (by omega) h7 (List.eq_nil_of_length_eq_zero hlen.symm)
  obtain ⟨-, -, -, -, -, -, hcnt⟩ := joined_good parts hnz hprops
  refine ⟨parts, hw, hlen, hpt, hcf, ?_⟩
  rw [hcnt, ← hlen]
  have : 1 ≤ parts.length := by
    cases hp : parts with
    | nil => exact absurd hp hnz
    | cons a t => simp
  omega

/-- C3 witness: the theorem applied at `v = 2105`, `AndBehavior.None`. -/
theorem claim_c3_witness : 1000 ≤ 2105 ∧ 2105 < 2 ^ 64 ∧
    ∃ parts : List String,
      to_word 2105 AndBehavior.None = some (joinSep ", " parts) ∧
      parts.length = (specNonzeroGroups 2105).length ∧
      (∀ i, ((specNonzeroGroups 2105).get? i).bind
        (fun p => renderPart AndBehavior.None (p.1, p.2, 2105)) = parts.get? i) ∧
      (∀ q ∈ parts, ',' ∉ q.data) ∧
      (joinSep ", " parts).data.count ',' + 1 = (specNonzeroGroups 2105).length :=
  ⟨by norm_num, by norm_num, claim_c3 2105 AndBehavior.None (by norm_num) (by norm_num)⟩

/-- C4 counterexample: for the `OnlyUnderThousand` policy with nonzero group index 1 and
full value 731 (< 1000), `insert_and` returns " and ", not the plain space the claim
demands for every nonzero group index. -/
theorem claim_c4_counterexample :
    insert_and AndBehavior.OnlyUnderThousand 1 731 = " and " ∧
    insert_and AndBehavior.OnlyUnderThousand 1 731 ≠ " " := by
  exact ⟨rfl, by decide⟩

/-- C4 (amended): for the `OnlyUnderThousand` policy, `insert_and` returns "and"
exactly when the full value is below 1000, irrespective of the group index; a plain
space is returned whenever the full value is at least 1000. -/
theorem claim_c4_amended : ∀ g v : Nat,
    (insert_and AndBehavior.OnlyUnderThousand g v = " and " ↔ v ≤ 999) ∧
    (1000 ≤ v → insert_and AndBehavior.OnlyUnderThousand g v = " ") := by
  intro g v
  by_cases hv : v ≤ 999
  · refine ⟨⟨fun _ => hv, fun _ => ?_⟩, fun h => by omega⟩
    show (if v ≤ 999 then AND_STR else " ") = " and "
    rw [if_pos hv]
    rfl
  · constructor
    · constructor
      · intro hcon
        rw [show insert_and AndBehavior.OnlyUnderThousand g v =
          (if v ≤ 999 then AND_STR else " ") from rfl, if_neg hv] at hcon
        exact absurd hcon (by decide)
      · intro h; exact absurd h hv
    · intro _
      rw [show insert_and AndBehavior.OnlyUnderThousand g v =
        (if v ≤ 999 then AND_STR else " ") from rfl, if_neg hv]

/-- C4 witness: the amended theorem applied at group index 1 with full values 731 and
1500. -/
theorem claim_c4_witness :
    insert_and AndBehavior.OnlyUnderThousand 1 731 = " and " ∧
    insert_and AndBehavior.OnlyUnderThousand 1 1500 = " " :=
  ⟨(claim_c4_amended 1 731).1.mpr (by norm_num), (claim_c4_amended 1 1500).2 (by norm_num)⟩

/-- C5: for every 64-bit value and every policy, `to_word` returns a string; no
defensive error branch and no modelled panic (`Option.none`) is reachable through the
public entry point. -/
theorem claim_c5 (x : Nat) (hx : x < 2 ^ 64) (ab : AndBehavior) :
    ∃ s : String, to_word x ab = some s := by
  by_cases h0 : x = 0
  · subst h0
    exact ⟨"zero", rfl⟩
  · obtain ⟨parts, hw, -, -⟩ := to_word_structure x ab h0
    exact ⟨_, hw⟩

/-- C5 witness: the theorem applied at `x = 5`, `AndBehavior.All`. -/
theorem claim_c5_witness : (5 : Nat) < 2 ^ 64 ∧ ∃ s : String,
    to_word 5 AndBehavior.All = some s :=
  ⟨by norm_num, claim_c5 5 (by norm_num) AndBehavior.All⟩

/-- C6: for every value below ten and every policy, `to_word` yields exactly the digit
word given by the `single_digit` table, independent of the policy. -/
theorem claim_c6 (v : Nat) (hv : v < 10) (ab : AndBehavior) :
    ∃ s : String, single_digit v = Except.ok s ∧ to_word v ab = some s := by
  interval_cases v <;> cases ab <;> exact ⟨_, rfl, by decide⟩

/-- C6 witness: the theorem applied at `v = 7`, `AndBehavior.None`. -/
theorem claim_c6_witness : (7 : Nat) < 10 ∧ ∃ s : String,
    single_digit 7 = Except.ok s ∧ to_word 7 AndBehavior.None = some s :=
  ⟨by norm_num, claim_c6 7 (by norm_num) AndBehavior.None⟩

/-- C7: for every value of at least 1000, every group index, every policy and every
full value, `under_1000` returns the out-of-range error and never a rendered string. -/
theorem claim_c7 (x g v : Nat) (ab : AndBehavior) (hx : 1000 ≤ x) :
    under_1000 x g ab v = some (Except.error "Value over 999.") := by
  show under_1000F (x + 1) x g ab v = _
  rw [under_1000F]
  rw [if_neg (by omega), if_neg ?hmid, if_neg (by omega)]
  case hmid =>
    intro hcon
    obtain ⟨h1, h2, h3⟩ := hcon
    omega

/-- C7 witness: the theorem applied at the library's own test input 2105. -/
theorem claim_c7_witness : 1000 ≤ 2105 ∧
    under_1000 2105 0 AndBehavior.All 2105 = some (Except.error "Value over 999.") :=
  ⟨by norm_num, claim_c7 2105 0 2105 AndBehavior.All (by norm_num)⟩

/-- C8: for every value up to 999999 and every policy, the rendered text has no two
adjacent spaces, neither starts nor ends with a space or comma, and contains exactly
(number of nonzero base-1000 groups − 1) commas — zero when the value is below 1000. -/
theorem claim_c8 (v : Nat) (hv : v ≤ 999999) (ab : AndBehavior) :
    ∃ out : String, to_word v ab = some out ∧
      noDS out.data = true ∧
      out.data.head? ≠ some ' ' ∧ out.data.head? ≠ some ',' ∧
      out.data.getLast? ≠ some ' ' ∧ out.data.getLast? ≠ some ',' ∧
      out.data.count ',' = (specNonzeroGroups v).length - 1 ∧
      (v < 1000 → out.data.count ',' = 0) := by
  by_cases h0 : v = 0
  · subst h0
    exact ⟨"zero", rfl, by decide, by decide, by decide, by decide, by decide,
      by decide, fun _ => by decide⟩
  · obtain ⟨parts, hw, hlen, hpt⟩ := to_word_structure v ab h0
    have hform := to_word_part_shape hlen hpt
    have hprops : ∀ q ∈ parts, q.data ≠ [] ∧ noDS q.data = true ∧
        q.data.head? ≠ some ' ' ∧ q.data.head? ≠ some ',' ∧
        q.data.getLast? ≠ some ' ' ∧ q.data.getLast? ≠ some ',' ∧
        q.data.count ',' = 0 := by
      intro q hq
      obtain ⟨i, hqi⟩ := List.mem_iff_get?.mp hq
      have hi : i < parts.length := by
        by_contra hni
        rw [List.get?_eq_none.mpr (by omega)] at hqi
        cases hqi
      obtain ⟨p, s, suf, u, hsp, hpi, hsd, hgb, hsuf, hlt, hle⟩ := hform i hi
      rw [hpi] at hqi
      obtain rfl := Option.some.inj hqi
      exact part_props hsd hgb hle hsuf
    have hnz : parts ≠ [] := by
      intro he
      have h7 : v < 1000 ^ 7 := by
        have : (999999 : Nat) < 1000 ^ 7 := by norm_num
        omega
      rw [he] at hlen
      exact specNZ_ne_nil (by omega) h7 (List.eq_nil_of_length_eq_zero hlen.symm)
    obtain ⟨-, hnds, hh1, hh2, hl1, hl2, hcnt⟩ := joined_good parts hnz hprops
    refine ⟨joinSep ", " parts, hw, hnds, hh1, hh2, hl1, hl2, by rw [hcnt, hlen], ?_⟩
    intro hv1000
    rw [hcnt, hlen]
    have := specNZ_small hv1000
    omega

/-- C8 witness: the theorem applied at `v = 350430`, `AndBehavior.All`. -/
theorem claim_c8_witness : (350430 : Nat) ≤ 999999 ∧
    ∃ out : String, to_word 350430 AndBehavior.All = some out ∧
      noDS out.data = true ∧
      out.data.head? ≠ some ' ' ∧ out.data.head? ≠ some ',' ∧
      out.data.getLast? ≠ some ' ' ∧ out.data.getLast? ≠ some ',' ∧
      out.data.count ',' = (specNonzeroGroups 350430).length - 1 ∧
      (350430 < 1000 → out.data.count ',' = 0) :=
  ⟨by norm_num, claim_c8 350430 (by norm_num) AndBehavior.All⟩

/-- C9: for each fixed policy, `to_word` is injective over the 64-bit domain; the
rendered text loses no information. -/
theorem claim_c9 (ab : AndBehavior) (x y : Nat) (hx : x < 2 ^ 64) (hy : y < 2 ^ 64)
    (hne : x ≠ y) : to_word x ab ≠ to_word y ab := by
  intro he
  obtain ⟨ox, hox, hpx⟩ := to_word_parse x hx ab
  obtain ⟨oy, hoy, hpy⟩ := to_word_parse y hy ab
  rw [hox, hoy] at he
  obtain rfl := Option.some.inj he
  rw [hpx] at hpy
  exact hne (Option.some.inj hpy)

/-- C9 witness: the theorem applied at `x = 3`, `y = 4`, `AndBehavior.All`. -/
theorem claim_c9_witness : (3 : Nat) < 2 ^ 64 ∧ (4 : Nat) < 2 ^ 64 ∧ (3 : Nat) ≠ 4 ∧
    to_word 3 AndBehavior.All ≠ to_word 4 AndBehavior.All :=
  ⟨by norm_num, by norm_num, by norm_num,
    claim_c9 AndBehavior.All 3 4 (by norm_num) (by norm_num) (by norm_num)⟩

/-- C10: command-line parsing is not total: tokens beginning with "--" whose lowercased
length is 3, 4 or 5 (such as "--a", "--an", "--and") make
`InputComponent::parse_single_input` take the byte range 2..6 out of bounds, modelled
as `Option.none`; consequently `Config::parse` faults on any argument list containing
such a token after the program name. -/
theorem claim_c10 :
    (parse_single_input "--a".data = Option.none ∧
     parse_single_input "--an".data = Option.none ∧
     parse_single_input "--and".data = Option.none) ∧
    ∀ args : List (List Char), "--and".data ∈ args.drop 1 →
      Config.parse args = Option.none := by
  refine ⟨⟨by decide, by decide, by decide⟩, ?_⟩
  intro args hmem
  cases args with
  | nil => cases hmem
  | cons prog rest =>
    have hrest : "--and".data ∈ rest := by simpa using hmem
    have hlen : ¬ (prog :: rest).length < 2 := by
      cases rest with
      | nil => cases hrest
      | cons a t => simp
    rw [Config.parse, if_neg hlen, mapOpt_none_of_mem hrest (by decide)]

/-- C10 witness: the theorem applied to the argument list `["prog", "--and"]`. -/
theorem claim_c10_witness :
    "--and".data ∈ ([("prog".data : List Char), "--and".data].drop 1) ∧
    Config.parse [("prog".data : List Char), "--and".data] = Option.none :=
  ⟨by decide, claim_c10.2 _ (by decide)⟩
